import Mathlib

/-!
Verification of the Reacher application-pipeline engine.

This file gives a shallow embedding of the core of the repository
(`src/models.py`, `src/db.py`, `src/agent.py`, `src/email_finder.py`,
`src/cli.py`) and settles the frozen claims about it.

Conventions of the embedding:
* Python strings are Lean `String`s; the text-processing primitives
  (`str.lower`, `str.strip`, the `in` substring test, `str.split`) are
  re-implemented over `List Char` so that every definition evaluates by
  kernel reduction.
* The SQLite tables are Lean lists of row structures; SQL statements
  become list operations (`INSERT OR IGNORE` = append-if-absent keyed on
  the primary key, `UPDATE ... WHERE id = ?` = map over rows, `ORDER BY
  ... DESC` = insertion sort by the SQLite TEXT ordering, which is
  bytewise comparison).
* Functions with side effects pass the store state explicitly; network
  collaborators (page fetching, HTML parsing, SMTP delivery, LLM
  generation) are oracle parameters, and the email-discovery engine
  additionally returns the list of network effects it performed.
-/

/-! ## String primitives -/

/-- Python `str.lower` on the character list of a string (ASCII case fold,
as used by every `.lower()` call in the source). -/
def lowerData (s : String) : List Char :=
  s.data.map Char.toLower

/-- Python's substring test `needle in hay` over character lists. -/
def containsSub (hay needle : List Char) : Bool :=
  needle.isPrefixOf hay ||
    match hay with
    | [] => false
    | _ :: t => containsSub t needle

/-- Bytewise (memcmp-style) string ordering, as SQLite compares TEXT
columns; the source only orders ASCII ISO-8601 timestamps with it. -/
def lexLe : List Char → List Char → Bool
  | [], _ => true
  | _ :: _, [] => false
  | a :: as, b :: bs =>
      if a.toNat = b.toNat then lexLe as bs else decide (a.toNat < b.toNat)

/-- Python `str.strip()` (used as `company.strip()`): drop leading and
trailing whitespace. -/
def trimChars (l : List Char) : List Char :=
  ((l.dropWhile Char.isWhitespace).reverse.dropWhile Char.isWhitespace).reverse

/-- Python `s.split(sep)` for a one-character separator. -/
def splitOnCharAux (sep : Char) : List Char → List Char → List (List Char)
  | [], acc => [acc.reverse]
  | c :: t, acc =>
      if c = sep then acc.reverse :: splitOnCharAux sep t []
      else splitOnCharAux sep t (c :: acc)

def splitOnChar (l : List Char) (sep : Char) : List (List Char) :=
  splitOnCharAux sep l []

/-- `s.split(sep)[0]`: the part before the first separator. -/
def partBefore (l : List Char) (sep : Char) : List Char :=
  l.takeWhile (fun c => c ≠ sep)

/-- `s.split(sep)[-1]`: the part after the last separator (the whole
string when the separator is absent). -/
def partAfterLast (l : List Char) (sep : Char) : List Char :=
  (l.reverse.takeWhile (fun c => c ≠ sep)).reverse

/-! ## Data model (`src/models.py`, table schemas of `src/db.py`) -/

/-- `models.Job`: a normalized job posting. The `source` field holds the
string value of the Python `JobSource` enum (`"linkedin"` / `"twitter"`),
which is what every use site reads via `.value`; `discovered_at` holds
the ISO-8601 text that `db.py` persists. -/
structure Job where
  title : String
  company : String
  location : String
  description : String
  application_email : String
  source : String
  source_id : String
  source_url : String
  discovered_at : String
deriving DecidableEq, Repr

/-- `Job.unique_key`: `source:source_id` when a native id exists, else the
lowercase fold of `source:title:company`. -/
def Job.unique_key (j : Job) : String :=
  if j.source_id ≠ "" then j.source ++ ":" ++ j.source_id
  else String.mk (lowerData (j.source ++ ":" ++ j.title ++ ":" ++ j.company))

/-- A row of the `seen_jobs` table (primary key `unique_key`). -/
structure SeenRow where
  unique_key : String
  title : String
  company : String
  location : String
  description : String
  application_email : String
  source : String
  source_id : String
  source_url : String
  discovered_at : String
deriving DecidableEq, Repr

/-- A row of the `applications` table (the autoincrement id is not read
anywhere in the source and is omitted). -/
structure AppRow where
  job_title : String
  company : String
  recipient_email : String
  subject : String
  body : String
  source : String
  source_url : String
  sent_at : String
  status : String
deriving DecidableEq, Repr

/-- A row of the `drafts` table. -/
structure DraftRow where
  id : Nat
  job_unique_key : String
  job_title : String
  company : String
  location : String
  recipient_email : String
  subject : String
  body : String
  source : String
  source_url : String
  created_at : String
  status : String
deriving DecidableEq, Repr

/-- The SQLite database: the three tables of `init_db`. -/
structure Store where
  seen : List SeenRow
  apps : List AppRow
  drafts : List DraftRow
deriving DecidableEq, Repr

/-! ## `src/db.py` -/

def jobToSeenRow (j : Job) : SeenRow :=
  ⟨j.unique_key, j.title, j.company, j.location, j.description,
   j.application_email, j.source, j.source_id, j.source_url, j.discovered_at⟩

/-- `db.is_job_seen`: `SELECT 1 FROM seen_jobs WHERE unique_key = ?`. -/
def is_job_seen (j : Job) (seen : List SeenRow) : Bool :=
  seen.any (fun r => r.unique_key = j.unique_key)

/-- `db.mark_job_seen`: `INSERT OR IGNORE INTO seen_jobs ...` keyed on the
primary key `unique_key`.  The first component is the Python function's
return value: the function is annotated `-> None` and always returns
`None` (embedded as `none`), never a boolean. -/
def mark_job_seen (j : Job) (seen : List SeenRow) :
    Option Bool × List SeenRow :=
  (none,
   if seen.any (fun r => r.unique_key = j.unique_key) then seen
   else seen ++ [jobToSeenRow j])

/-- `db.log_application`: plain `INSERT INTO applications`. -/
def log_application (a : AppRow) (apps : List AppRow) : List AppRow :=
  apps ++ [a]

/-- `db.get_contacted_companies`: lowercased company names from
`applications` plus non-discarded `drafts`.  Python returns a set; the
embedding returns the deduplicated list (only membership is ever used). -/
def get_contacted_companies (st : Store) : List String :=
  ((st.apps.map (fun a => String.mk (lowerData a.company))) ++
    ((st.drafts.filter (fun d => d.status ≠ "discarded")).map
      (fun d => String.mk (lowerData d.company)))).eraseDups

/-- `db.get_sent_companies`: lowercased company names from `applications`
only. -/
def get_sent_companies (st : Store) : List String :=
  (st.apps.map (fun a => String.mk (lowerData a.company))).eraseDups

/-- The `WHERE` clause of `db.get_pending_jobs`: non-empty email, no
application with the same title and company, no draft (of any status)
with the same `unique_key`. -/
def pendingFilter (st : Store) (s : SeenRow) : Bool :=
  s.application_email ≠ "" &&
  !(st.apps.any (fun a => a.job_title = s.title && a.company = s.company)) &&
  !(st.drafts.any (fun d => d.job_unique_key = s.unique_key))

/-- `ORDER BY s.discovered_at DESC` over TEXT columns: newer (bytewise
greater) timestamps first. -/
def seenNewerFirst (x y : SeenRow) : Prop :=
  lexLe y.discovered_at.data x.discovered_at.data = true

instance : DecidableRel seenNewerFirst := fun x y => by
  unfold seenNewerFirst; infer_instance

/-- `db.get_pending_jobs`. -/
def get_pending_jobs (st : Store) : List SeenRow :=
  List.insertionSort seenNewerFirst (st.seen.filter (pendingFilter st))

/-- `ORDER BY created_at DESC` for drafts. -/
def draftNewerFirst (x y : DraftRow) : Prop :=
  lexLe y.created_at.data x.created_at.data = true

instance : DecidableRel draftNewerFirst := fun x y => by
  unfold draftNewerFirst; infer_instance

/-- `db.get_drafts`, optionally filtered by status. -/
def get_drafts (status : Option String) (drafts : List DraftRow) :
    List DraftRow :=
  match status with
  | some st => List.insertionSort draftNewerFirst
      (drafts.filter (fun d => d.status = st))
  | none => List.insertionSort draftNewerFirst drafts

/-- `db.get_draft_by_id`: `SELECT * FROM drafts WHERE id = ?` (first
matching row). -/
def get_draft_by_id (draft_id : Nat) (drafts : List DraftRow) :
    Option DraftRow :=
  drafts.find? (fun r => r.id = draft_id)

/-- `db.update_draft_status`: `UPDATE drafts SET status = ? WHERE id = ?`;
the boolean is `cursor.rowcount > 0` (did any row match).  Note the
update is unconditional: nothing in `db.py` inspects the current
status. -/
def update_draft_status (draft_id : Nat) (status : String)
    (drafts : List DraftRow) : List DraftRow × Bool :=
  (drafts.map (fun r => if r.id = draft_id then { r with status := status }
                        else r),
   drafts.any (fun r => r.id = draft_id))

/-- `db.update_draft_content`: `UPDATE drafts SET subject = ?, body = ?
WHERE id = ?`. -/
def update_draft_content (draft_id : Nat) (subject body : String)
    (drafts : List DraftRow) : List DraftRow × Bool :=
  (drafts.map (fun r => if r.id = draft_id then
                          { r with subject := subject, body := body }
                        else r),
   drafts.any (fun r => r.id = draft_id))

/-! ## `src/agent.py`: scoring and one-per-company selection -/

/-- The JS/TS-ecosystem keyword list of `_job_priority_score`. -/
def jsKeywords : List (List Char) :=
  ["javascript", "typescript", "js ", "ts ", "react", "node.js", "nodejs",
   "next.js", "nextjs", "nestjs"].map (fun s => s.data)

def fullStackKeywords : List (List Char) :=
  ["full stack", "fullstack", "full-stack"].map (fun s => s.data)

def frontendKeywords : List (List Char) :=
  ["frontend", "front-end", "front end"].map (fun s => s.data)

def backendKeywords : List (List Char) :=
  ["backend", "back-end", "back end"].map (fun s => s.data)

def reactNativeKw : List Char := "react native".data

/-- `combined = f"{title} {desc}"` over the lowercased fields. -/
def combinedText (j : Job) : List Char :=
  lowerData j.title ++ (' ' :: lowerData j.description)

/-- The `+100` language-preference component of `_job_priority_score`. -/
def jsScore (combined : List Char) : Int :=
  if jsKeywords.any (fun kw => containsSub combined kw) then 100 else 0

/-- The `+50 / +30 / +20` role-type `if/elif` chain of
`_job_priority_score` (checked against the lowercased title only). -/
def roleScore (title : List Char) : Int :=
  if fullStackKeywords.any (fun kw => containsSub title kw) then 50
  else if frontendKeywords.any (fun kw => containsSub title kw) then 30
  else if backendKeywords.any (fun kw => containsSub title kw) then 20
  else 0

/-- The `+40` React-Native bonus of `_job_priority_score`. -/
def rnScore (combined : List Char) : Int :=
  if containsSub combined reactNativeKw then 40 else 0

/-- `agent._job_priority_score`. -/
def job_priority_score (j : Job) : Int :=
  jsScore (combinedText j) + roleScore (lowerData j.title) +
    rnScore (combinedText j)

/-- `job["company"].strip().lower()` — the grouping key of
`_pick_best_per_company`.  (The function accepts both `Job` objects and
raw DB rows; both compute this same key and score from the same `title`
/ `company` / `description` fields, so the embedding uses one shape.) -/
def companyKey (j : Job) : String :=
  String.mk ((trimChars j.company.data).map Char.toLower)

/-- Python-dict insertion (`by_company[company_key] = (job, score)`):
replacing a present key keeps its original position, a new key is
appended. -/
def dictInsert (k : String) (v : Job × Int) :
    List (String × Job × Int) → List (String × Job × Int)
  | [] => [(k, v)]
  | e :: t => if e.1 = k then (k, v) :: t else e :: dictInsert k v t

/-- Python-dict lookup (`by_company[company_key]` / `key in by_company`). -/
def alookup (k : String) :
    List (String × Job × Int) → Option (Job × Int)
  | [] => none
  | e :: t => if e.1 = k then some e.2 else alookup k t

/-- One iteration of the `for job in jobs` loop of
`_pick_best_per_company`. -/
def pickStep (contacted : List String)
    (acc : List (String × Job × Int)) (job : Job) :
    List (String × Job × Int) :=
  let key := companyKey job
  let sc := job_priority_score job
  if key ∈ contacted then acc
  else
    match alookup key acc with
    | none => dictInsert key (job, sc) acc
    | some e => if e.2 < sc then dictInsert key (job, sc) acc else acc

/-- `agent._pick_best_per_company`. -/
def pick_best_per_company (jobs : List Job) (contacted : List String) :
    List Job :=
  (jobs.foldl (pickStep contacted) []).map (fun e => e.2.1)

/-- Verification invariant of the `_pick_best_per_company` fold: the
dict keys are distinct; every entry carries its key, its job's score,
is not excluded, and holds the best-scoring job of its employer group
among the processed prefix (strictly better than every earlier group
member, i.e. the first-encountered maximum); and every processed
non-excluded employer has an entry. -/
def PickInv (contacted : List String) (processed : List Job)
    (acc : List (String × Job × Int)) : Prop :=
  (acc.map Prod.fst).Nodup ∧
  (∀ e ∈ acc,
    e.1 = companyKey e.2.1 ∧
    e.2.2 = job_priority_score e.2.1 ∧
    e.1 ∉ contacted ∧
    (∀ x ∈ processed, companyKey x = e.1 →
      job_priority_score x ≤ e.2.2) ∧
    (∃ l₁ l₂, processed = l₁ ++ e.2.1 :: l₂ ∧
      ∀ x ∈ l₁, companyKey x = e.1 → job_priority_score x < e.2.2)) ∧
  (∀ x ∈ processed, companyKey x ∉ contacted →
    ∃ e ∈ acc, e.1 = companyKey x)

/-! ## `src/agent.py`: the filter-new step and the budgeted send loops

The scraping, LLM and SMTP collaborators are abstracted: the send loop
is driven by the per-candidate delivery outcomes
(`send_application_email` returning `True`/`False`), which is all the
budget accounting observes. -/

/-- Step 2 of `run_agent` (lines 160–167): per job, skip if
`is_job_seen`, else `mark_job_seen`; the boolean records whether the job
was treated as new (bucketed into the with/without-email lists). -/
def filterNewSteps : List Job → List SeenRow → List Bool × List SeenRow
  | [], seen => ([], seen)
  | j :: rest, seen =>
      if is_job_seen j seen then
        let r := filterNewSteps rest seen
        (false :: r.1, r.2)
      else
        let r := filterNewSteps rest (mark_job_seen j seen).2
        (true :: r.1, r.2)

/-- The `for job in best_jobs` send loop of `run_agent` /
`send_pending`: `applied` is `applied_count`, each list element is one
candidate's delivery outcome, and the result is
`(applications_sent, applications_failed)`.  A dry run increments the
counters exactly like a successful send. -/
def sendLoop (dry : Bool) (maxRun : Int) : Int → List Bool → Nat × Nat
  | _, [] => (0, 0)
  | applied, ok :: rest =>
      if maxRun ≤ applied then (0, 0)
      else if dry then
        let r := sendLoop dry maxRun (applied + 1) rest
        (r.1 + 1, r.2)
      else if ok then
        let r := sendLoop dry maxRun (applied + 1) rest
        (r.1 + 1, r.2)
      else
        let r := sendLoop dry maxRun applied rest
        (r.1, r.2 + 1)

/-- The rate-limit skeleton shared by `run_agent`, `send_pending` and
`send_approved_drafts` (agent.py lines 124–133 and 208–251):
`remaining_today = max_per_day - apps_today`; abort reporting zero when
it is `≤ 0`; otherwise run the send loop with budget
`min(max_per_run, remaining_today)`. -/
def run_agent_sends (maxPerDay maxPerRun sentToday : Int) (dry : Bool)
    (outcomes : List Bool) : Nat × Nat :=
  if maxPerDay - sentToday ≤ 0 then (0, 0)
  else sendLoop dry (min maxPerRun (maxPerDay - sentToday)) 0 outcomes

/-! ## `src/agent.py`: `send_approved_drafts` -/

/-- The `Application(...)` record built from a draft on a successful
send (`sent_at` is the send-time timestamp, `status` the model default
`"sent"`). -/
def draftToApplication (d : DraftRow) (now : String) : AppRow :=
  ⟨d.job_title, d.company, d.recipient_email, d.subject, d.body,
   d.source, d.source_url, now, "sent"⟩

/-- The one-draft-per-company dedup of `send_approved_drafts`:
`seenCompanies` is the in-memory `seen_companies` set, `alreadySent`
the result of `get_sent_companies()`. -/
def dedupDraftsAux (alreadySent : List String) :
    List DraftRow → List String → List DraftRow
  | [], _ => []
  | d :: rest, seenCompanies =>
      let key := String.mk ((trimChars d.company.data).map Char.toLower)
      if key ∈ seenCompanies ∨ key ∈ alreadySent then
        dedupDraftsAux alreadySent rest seenCompanies
      else d :: dedupDraftsAux alreadySent rest (key :: seenCompanies)

/-- The `for draft in unique_drafts` loop of `send_approved_drafts`:
on success, log the Application and set the draft's status to `sent`;
on failure, only bump `applications_failed`; a dry run only bumps the
counters.  `outcome d.id` is the delivery collaborator's result for the
draft with that id.  Returns the final store and
`(applications_sent, applications_failed)`. -/
def sendDraftsLoop (outcome : Nat → Bool) (dry : Bool) (maxRun : Int)
    (now : String) : Int → List DraftRow → Store → Store × Nat × Nat
  | _, [], st => (st, 0, 0)
  | sentCount, d :: rest, st =>
      if maxRun ≤ sentCount then (st, 0, 0)
      else if dry then
        let r := sendDraftsLoop outcome dry maxRun now (sentCount + 1) rest st
        (r.1, r.2.1 + 1, r.2.2)
      else if outcome d.id then
        let st1 : Store :=
          { st with
            apps := log_application (draftToApplication d now) st.apps,
            drafts := (update_draft_status d.id ("sent") st.drafts).1 }
        let r := sendDraftsLoop outcome dry maxRun now (sentCount + 1) rest st1
        (r.1, r.2.1 + 1, r.2.2)
      else
        let r := sendDraftsLoop outcome dry maxRun now sentCount rest st
        (r.1, r.2.1, r.2.2 + 1)

/-- `agent.send_approved_drafts`: rate-limit gate, collect approved (and,
with `sendAll`, pending) drafts, dedup to one per company, then the send
loop. -/
def send_approved_drafts (outcome : Nat → Bool) (dry sendAll : Bool)
    (maxPerDay maxPerRun sentToday : Int) (now : String) (st : Store) :
    Store × Nat × Nat :=
  if maxPerDay - sentToday ≤ 0 then (st, 0, 0)
  else
    let drafts := get_drafts (some ("approved")) st.drafts ++
      (if sendAll then get_drafts (some ("pending")) st.drafts else [])
    let uniq := dedupDraftsAux (get_sent_companies st) drafts []
    sendDraftsLoop outcome dry (min maxPerRun (maxPerDay - sentToday)) now
      0 uniq st

/-! ## `src/cli.py`: the draft commands' per-draft bodies -/

/-- One iteration of `approve_drafts_cmd` (cli.py lines 222–231): look
the draft up; skip when absent; skip (reporting "already sent") when its
status is `sent`; otherwise `update_draft_status(id, "approved")`. -/
def approve_draft_step (draft_id : Nat) (drafts : List DraftRow) :
    List DraftRow :=
  match get_draft_by_id draft_id drafts with
  | none => drafts
  | some d =>
      if d.status = "sent" then drafts
      else (update_draft_status draft_id ("approved") drafts).1

/-- One iteration of `discard_drafts_cmd` (cli.py lines 259–268), same
guard with target status `discarded`. -/
def discard_draft_step (draft_id : Nat) (drafts : List DraftRow) :
    List DraftRow :=
  match get_draft_by_id draft_id drafts with
  | none => drafts
  | some d =>
      if d.status = "sent" then drafts
      else (update_draft_status draft_id ("discarded") drafts).1

/-! ## `src/email_finder.py` -/

/-- Embeds `SKIP_DOMAINS`. -/
def skipDomains : List (List Char) :=
  ["example.com", "test.com", "linkedin.com", "licdn.com", "facebook.com",
   "twitter.com", "x.com", "google.com", "googleapis.com", "github.com",
   "githubusercontent.com", "sentry.io", "gravatar.com", "wp.com",
   "wordpress.com", "w3.org", "schema.org", "cloudflare.com",
   "amazonaws.com", "gstatic.com", "bootstrapcdn.com",
   "jquery.com"].map (fun s => s.data)

/-- Embeds `SKIP_PREFIXES` (the denylist of local parts). -/
def skipLocalParts : List (List Char) :=
  ["noreply", "no-reply", "donotreply", "do-not-reply", "mailer-daemon",
   "postmaster", "webmaster", "admin", "support", "abuse", "security",
   "privacy"].map (fun s => s.data)

/-- Embeds `COMMON_HR_PREFIXES` (HR-indicative local-part tokens). -/
def commonHrTokens : List (List Char) :=
  ["hr", "careers", "jobs", "hiring", "recruiting", "recruitment",
   "talent", "apply", "career", "people"].map (fun s => s.data)

/-- Embeds `CAREER_PATHS`. -/
def careerPaths : List String :=
  ["/careers", "/jobs", "/contact", "/about", "/contact-us", "/about-us",
   "/work-with-us", "/join-us", "/join", "/hiring"]

/-- Character class `[a-zA-Z0-9._%+\-]` of `EMAIL_PATTERN`. -/
def isLocalChar (c : Char) : Bool :=
  c.isAlpha || c.isDigit || c = '.' || c = '_' || c = '%' || c = '+' ||
    c = '-'

/-- Character class `[a-zA-Z0-9.\-]` of `EMAIL_PATTERN`. -/
def isDomainChar (c : Char) : Bool :=
  c.isAlpha || c.isDigit || c = '.' || c = '-'

/-- Backtracking step of `EMAIL_PATTERN`: inside the maximal
domain-character run `dom`, the greedy `[a-zA-Z0-9.\-]+` backtracks to
the largest index `j ≥ 1` whose character is `'.'` and is followed by at
least two alphabetic characters (the `\.[a-zA-Z]\x7b2,\x7d` tail). -/
def findDotIdx (dom : List Char) : Nat → Option Nat
  | 0 => none
  | j + 1 =>
      if dom.get? (j + 1) = some '.' ∧
          2 ≤ ((dom.drop (j + 2)).takeWhile Char.isAlpha).length then
        some (j + 1)
      else findDotIdx dom j

/-- One anchored match attempt of `EMAIL_PATTERN` at the head of `s`:
greedy local part, `'@'`, then the backtracked domain/TLD split.
Returns the matched text and the remainder after the match. -/
def matchEmailAt (s : List Char) : Option (List Char × List Char) :=
  let loc := s.takeWhile isLocalChar
  if loc.isEmpty then none
  else
    match s.drop loc.length with
    | '@' :: s2 =>
        let dom := s2.takeWhile isDomainChar
        match findDotIdx dom (dom.length - 1) with
        | none => none
        | some j =>
            let alphaRun := (dom.drop (j + 1)).takeWhile Char.isAlpha
            some (loc ++ '@' :: (dom.take j ++ '.' :: alphaRun),
                  s2.drop (j + 1 + alphaRun.length))
    | _ => none

/-- Embeds `EMAIL_PATTERN.findall`: left-to-right scan, non-overlapping
matches, advancing one character on failure.  The fuel argument starts
at the text length, which bounds the number of scan steps. -/
def findEmailsAux : Nat → List Char → List (List Char)
  | 0, _ => []
  | _, [] => []
  | fuel + 1, c :: rest =>
      match matchEmailAt (c :: rest) with
      | some r => r.1 :: findEmailsAux fuel r.2
      | none => findEmailsAux fuel rest

/-- Embeds `email_finder._is_valid_email`. -/
def is_valid_email (email : List Char) : Bool :=
  let lower := email.map Char.toLower
  let dmn := if lower.contains '@' then partAfterLast lower '@' else []
  let localPart := if lower.contains '@' then partBefore lower '@' else []
  if skipDomains.contains dmn then false
  else if skipLocalParts.contains localPart then false
  else if ".png".data.isSuffixOf dmn || ".jpg".data.isSuffixOf dmn ||
      ".gif".data.isSuffixOf dmn then false
  else if 80 < email.length then false
  else true

/-- Embeds `email_finder._extract_emails_from_text`. -/
def extract_emails_from_text (text : String) : List (List Char) :=
  (findEmailsAux text.data.length text.data).filter is_valid_email

/-- The HR-likeness test of `_rank_emails`: does the local part (before
the first `'@'`, lowercased) contain an HR-indicative token? -/
def hrLike (email : List Char) : Bool :=
  let localPart := (partBefore email '@').map Char.toLower
  commonHrTokens.any (fun hr => containsSub localPart hr)

/-- Embeds `email_finder._rank_emails`: HR-like addresses first, then the
rest, each group in input order. -/
def rank_emails (emails : List (List Char)) : List (List Char) :=
  if emails.isEmpty then []
  else emails.filter hrLike ++ emails.filter (fun e => !hrLike e)

/-- Embeds `email_finder._generate_common_patterns`. -/
def generate_common_patterns (dmn : List Char) : List (List Char) :=
  (commonHrTokens.take 6).map (fun p => p ++ ('@' :: dmn))

/-- A network / page-inspection action performed by the discovery
cascade; the claims about short-circuiting are phrased as "the effect
list is empty". -/
inductive NetEffect where
  | fetch (url : String)
  | pageScan
  | siteLookup
deriving DecidableEq, Repr

/-- The external collaborators of the cascade, abstracted over the type
`S` of parsed pages (`BeautifulSoup` values): `fetchPage` is
`_fetch_page` (None on non-200 or transport failure), `soupEmails` is
`_extract_emails_from_soup` (lowercased, set-deduplicated), and
`websiteFrom` is `_get_company_website_from_linkedin` (pure inspection
of the soup; empty string when nothing is found). -/
structure Oracle (S : Type) where
  fetchPage : String → Option S
  soupEmails : S → List (List Char)
  websiteFrom : String → Option S → String

/-- Drops everything up to and including the first `"://"`. -/
def dropToAfterScheme : List Char → Option (List Char)
  | [] => none
  | ':' :: '/' :: '/' :: rest => some rest
  | _ :: t => dropToAfterScheme t

/-- Embeds `urlparse(url).netloc` for the absolute URLs the source feeds
it: the host part between `"://"` and the next `'/'`. -/
def netlocOf (url : String) : List Char :=
  match dropToAfterScheme url.data with
  | some rest => rest.takeWhile (fun c => c ≠ '/')
  | none => []

/-- Embeds the `f"\x7bparsed_base.scheme\x7d://\x7bparsed_base.netloc\x7d"`
reconstruction in `_scrape_website_for_emails`. -/
def baseDomainOf (url : String) : String :=
  match dropToAfterScheme url.data with
  | some rest =>
      String.mk (url.data.takeWhile (fun c => c ≠ ':') ++
        (':' :: '/' :: '/' :: rest.takeWhile (fun c => c ≠ '/')))
  | none => url

/-- The page loop of `_scrape_website_for_emails`: skip visited URLs,
stop after `maxPages` successful fetches, stop as soon as a page yields
addresses (the accumulating Python set then holds exactly that page's
addresses). -/
def scrapeSiteAux {S : Type} (o : Oracle S) (maxPages : Nat) :
    List String → Nat → List String → List (List Char) × List NetEffect
  | [], _, _ => ([], [])
  | url :: rest, checked, visited =>
      if maxPages ≤ checked then ([], [])
      else if url ∈ visited then scrapeSiteAux o maxPages rest checked visited
      else
        match o.fetchPage url with
        | none =>
            let r := scrapeSiteAux o maxPages rest checked (url :: visited)
            (r.1, NetEffect.fetch url :: r.2)
        | some soup =>
            let found := o.soupEmails soup
            if found.isEmpty then
              let r := scrapeSiteAux o maxPages rest (checked + 1)
                (url :: visited)
              (r.1, NetEffect.fetch url :: r.2)
            else (found.eraseDups, [NetEffect.fetch url])

/-- Embeds `email_finder._scrape_website_for_emails` (homepage plus the
career/contact paths, `max_pages = 4`). -/
def scrape_website_for_emails {S : Type} (o : Oracle S) (base_url : String) :
    List (List Char) × List NetEffect :=
  let baseDomain := baseDomainOf base_url
  let pages := baseDomain :: careerPaths.map (fun p => baseDomain ++ p)
  scrapeSiteAux o 4 pages 0 []

/-- Embeds `parsed.netloc.lstrip("www.")`: Python `lstrip` removes
leading characters drawn from the set `\x7b'w', '.'\x7d`. -/
def lstripWwwDot (l : List Char) : List Char :=
  l.dropWhile (fun c => c = 'w' || c = '.')

/-- Embeds `email_finder.find_application_email`: the four-strategy
cascade.  Returns the chosen address (empty string when none) together
with the list of network / page-inspection effects performed. -/
def find_application_email {S : Type} (o : Oracle S)
    (job_description job_url company_name : String)
    (job_page_soup : Option S) : String × List NetEffect :=
  let desc_emails := extract_emails_from_text job_description
  let s1 : Option (List Char) :=
    if desc_emails.isEmpty then none
    else
      match rank_emails desc_emails with
      | top :: _ => some top
      | [] => none
  match s1 with
  | some top => (String.mk top, [])
  | none =>
    let s2 : Option (List Char) × List NetEffect :=
      match job_page_soup with
      | some soup =>
          let page_emails := o.soupEmails soup
          if page_emails.isEmpty then (none, [NetEffect.pageScan])
          else
            match rank_emails page_emails with
            | top :: _ => (some top, [NetEffect.pageScan])
            | [] => (none, [NetEffect.pageScan])
      | none => (none, [])
    match s2 with
    | (some top, effs) => (String.mk top, effs)
    | (none, effs2) =>
      let w0 := o.websiteFrom company_name job_page_soup
      let guess : String × List NetEffect :=
        if w0 = "" ∧ company_name ≠ "" then
          let clean := (lowerData company_name).filter
            (fun c => c.isAlpha || c.isDigit)
          if clean.isEmpty then ("", [])
          else
            let guessed := "https://www." ++ String.mk clean ++ ".com"
            match o.fetchPage guessed with
            | some _ => (guessed, [NetEffect.fetch guessed])
            | none => ("", [NetEffect.fetch guessed])
        else ("", [])
      let website := if w0 ≠ "" then w0 else guess.1
      let effsPre := effs2 ++ NetEffect.siteLookup :: guess.2
      if website ≠ "" then
        let scraped := scrape_website_for_emails o website
        let effs := effsPre ++ scraped.2
        match (if scraped.1.isEmpty then [] else rank_emails scraped.1) with
        | top :: _ => (String.mk top, effs)
        | [] =>
            let dmn := lstripWwwDot (netlocOf website)
            if dmn ≠ [] ∧ dmn.contains '.' then
              (String.mk ((generate_common_patterns dmn).headD []), effs)
            else ("", effs)
      else ("", effsPre)

/-! ## Concrete fixtures used by witnesses and counterexamples -/

def exJobFullStack : Job :=
  ⟨"Full Stack Engineer", "Acme", "", "", "jobs@acme.io", "linkedin",
   "fs1", "", ""⟩

def exJobBackend : Job :=
  ⟨"Backend Engineer", "Acme", "", "", "jobs@acme.io", "linkedin",
   "be1", "", ""⟩

def exJobReact : Job :=
  ⟨"react", "Acme", "", "native", "", "linkedin", "r1", "", ""⟩

def exSentDraft : DraftRow :=
  ⟨1, "linkedin:fs1", "Full Stack Engineer", "Acme", "", "jobs@acme.io",
   "Subject", "Body", "linkedin", "", "2024-01-01T00:00:00", "sent"⟩

def exApprovedDraft : DraftRow :=
  ⟨2, "linkedin:be1", "Backend Engineer", "Beta", "", "hr@beta.io",
   "Subject", "Body", "linkedin", "", "2024-01-02T00:00:00", "approved"⟩

def exSeenRow1 : SeenRow :=
  ⟨"linkedin:fs1", "Full Stack Engineer", "Acme", "", "", "jobs@acme.io",
   "linkedin", "fs1", "", "2024-01-02T00:00:00"⟩

def exSeenRow2 : SeenRow :=
  ⟨"linkedin:be1", "Backend Engineer", "Beta", "", "", "", "linkedin",
   "be1", "", "2024-01-01T00:00:00"⟩

def exStore : Store := ⟨[exSeenRow1, exSeenRow2], [], [exApprovedDraft]⟩

def exStoreDrafts : Store := ⟨[], [], [exApprovedDraft]⟩

def exDescC6 : String := "Email your resume to jobs@acme.io or noreply@acme.io"

def unitOracle : Oracle Unit := ⟨fun _ => none, fun _ => [], fun _ _ => ""⟩

/-! ## Helper lemmas -/

theorem containsSub_iff (hay needle : List Char) :
    containsSub hay needle = true ↔ needle <:+: hay := by
  induction hay with
  | nil =>
      rw [containsSub]
      simp [List.isPrefixOf_iff_prefix, List.infix_nil]
  | cons c t ih =>
      rw [containsSub]
      simp [List.isPrefixOf_iff_prefix, ih, List.infix_cons_iff, or_comm]

theorem infixOf_append {α : Type} {k a : List α} (h : k <:+: a)
    (b : List α) : k <:+: a ++ b := by
  obtain ⟨s, t, rfl⟩ := h
  exact ⟨s, t ++ b, by simp⟩

theorem containsSub_append_left {a k : List Char}
    (h : containsSub a k = true) (b : List Char) :
    containsSub (a ++ b) k = true := by
  rw [containsSub_iff] at h ⊢
  exact infixOf_append h b

theorem containsSub_append_self (a k : List Char) :
    containsSub (a ++ k) k = true := by
  rw [containsSub_iff]
  exact ⟨a, [], by simp⟩

theorem lexLe_total : ∀ a b : List Char, lexLe a b = true ∨ lexLe b a = true
  | [], _ => by left; rw [lexLe]
  | _ :: _, [] => by right; rw [lexLe]
  | a :: as, b :: bs => by
      rw [lexLe, lexLe]
      rcases Nat.lt_trichotomy a.toNat b.toNat with h | h | h
      · left; simp [h, Nat.ne_of_lt h]
      · rcases lexLe_total as bs with ih | ih
        · left; simp [h, ih]
        · right; simp [h.symm, ih]
      · right; simp [h, Nat.ne_of_lt h]

theorem lexLe_trans : ∀ {a b c : List Char},
    lexLe a b = true → lexLe b c = true → lexLe a c = true
  | [], _, _, _, _ => by rw [lexLe]
  | _ :: _, [], _, h, _ => by rw [lexLe] at h; exact absurd h (by simp)
  | _ :: _, _ :: _, [], _, h => by rw [lexLe] at h; exact absurd h (by simp)
  | a :: as, b :: bs, c :: cs, hab, hbc => by
      rw [lexLe] at hab hbc ⊢
      by_cases h1 : a.toNat = b.toNat
      · by_cases h2 : b.toNat = c.toNat
        · rw [if_pos h1] at hab
          rw [if_pos h2] at hbc
          rw [if_pos (h1.trans h2)]
          exact lexLe_trans hab hbc
        · rw [if_pos h1] at hab
          rw [if_neg h2] at hbc
          have hlt : b.toNat < c.toNat := of_decide_eq_true hbc
          rw [if_neg (by omega)]
          exact decide_eq_true (by omega)
      · rw [if_neg h1] at hab
        have l1 : a.toNat < b.toNat := of_decide_eq_true hab
        by_cases h2 : b.toNat = c.toNat
        · rw [if_neg (by omega)]
          exact decide_eq_true (by omega)
        · rw [if_neg h2] at hbc
          have l2 : b.toNat < c.toNat := of_decide_eq_true hbc
          rw [if_neg (by omega)]
          exact decide_eq_true (by omega)

/-! ## Claim C1 -/

/-- C1 counterexample: the store-level status-transition operation
`update_draft_status` does NOT reject a transition away from `sent`:
on a store holding one draft (id 1) with status `sent`, calling it with
target status `approved` leaves the draft with status `approved`, not
`sent`.  The claim, which asserts the status remains `sent` for every
target status, is therefore false. -/
theorem claim_C1_counterexample :
    (Option.map (fun r => r.status)
      ((update_draft_status 1 ("approved") [exSentDraft]).1.find?
        (fun r => r.id = 1))) = some ("approved") ∧
    ("approved" : String) ≠ "sent" := by
  decide

/-- C1 (amended): `update_draft_status` itself updates unconditionally;
the "already sent" rejection is enforced by its CLI callers.  For a
draft whose looked-up status is `sent`, both the approve command body
and the discard command body skip the update and leave the drafts table
(in particular that draft's status) unchanged. -/
theorem claim_C1 (drafts : List DraftRow) (draft_id : Nat) (d : DraftRow)
    (hfind : get_draft_by_id draft_id drafts = some d)
    (hsent : d.status = "sent") :
    approve_draft_step draft_id drafts = drafts ∧
    discard_draft_step draft_id drafts = drafts := by
  unfold approve_draft_step discard_draft_step
  rw [hfind]
  simp [hsent]

/-- Witness for C1 at a concrete store: a draft with status `sent` is
left untouched by the approve and discard command bodies. -/
theorem claim_C1_witness :
    approve_draft_step 1 [exSentDraft] = [exSentDraft] ∧
    discard_draft_step 1 [exSentDraft] = [exSentDraft] :=
  claim_C1 [exSentDraft] 1 exSentDraft (by decide) (by decide)

/-! ## Claim C2 -/

/-- C2 counterexample: `mark_job_seen` never returns a boolean — the
Python function is annotated `-> None` and its return value (the first
component of the embedding) is `None` even when the job's identity key
is absent from the store, where the claim asserts a return of `true`. -/
theorem claim_C2_counterexample :
    is_job_seen exJobFullStack [] = false ∧
    (mark_job_seen exJobFullStack []).1 ≠ some true := by
  decide

/-- Once the store holds a row with key `k`, the filter-new loop treats
every further job with that key as already seen and leaves the store
unchanged. -/
theorem filterNewSteps_all_seen (k : String) :
    ∀ (jobs : List Job) (db : List SeenRow),
      (∀ x ∈ jobs, x.unique_key = k) →
      (∃ r ∈ db, r.unique_key = k) →
      filterNewSteps jobs db = (jobs.map (fun _ => false), db)
  | [], _, _, _ => rfl
  | j :: rest, db, hk, hdb => by
      have hseen : is_job_seen j db = true := by
        obtain ⟨r, hr, hrk⟩ := hdb
        unfold is_job_seen
        rw [List.any_eq_true]
        exact ⟨r, hr, by simp [hrk, hk j (by simp)]⟩
      have ih := filterNewSteps_all_seen k rest db
        (fun x hx => hk x (by simp [hx])) hdb
      simp [filterNewSteps, hseen, ih]

/-- C2 (amended): `mark_job_seen` always returns `None`; the caller
(`run_agent` step 2) determines newness with a prior `is_job_seen`
check, and `INSERT OR IGNORE` keeps the table duplicate-free.  For any
sequence of jobs sharing one identity key `k` not yet in the store,
the check-then-mark loop reports exactly the first job as new, reports
every later one as already seen, and leaves exactly one row with key
`k` in the store. -/
theorem claim_C2 (k : String) (j : Job) (jobs : List Job)
    (db : List SeenRow)
    (hkeys : ∀ x ∈ j :: jobs, x.unique_key = k)
    (hdb : ∀ r ∈ db, r.unique_key ≠ k) :
    (mark_job_seen j db).1 = none ∧
    (filterNewSteps (j :: jobs) db).1 =
      true :: jobs.map (fun _ => false) ∧
    (filterNewSteps (j :: jobs) db).2.countP
      (fun r => r.unique_key = k) = 1 := by
  have hjk : j.unique_key = k := hkeys j (by simp)
  have hunseen : is_job_seen j db = false := by
    unfold is_job_seen
    rw [List.any_eq_false]
    intro r hr
    simp [hdb r hr, hjk]
  have hmark : (mark_job_seen j db).2 = db ++ [jobToSeenRow j] := by
    unfold mark_job_seen
    unfold is_job_seen at hunseen
    simp only [hunseen]
    simp
  have hrowkey : (jobToSeenRow j).unique_key = k := hjk
  have hmem : ∃ r ∈ db ++ [jobToSeenRow j], r.unique_key = k :=
    ⟨jobToSeenRow j, by simp, hrowkey⟩
  have hrest := filterNewSteps_all_seen k jobs (db ++ [jobToSeenRow j])
    (fun x hx => hkeys x (by simp [hx])) hmem
  have hstep : filterNewSteps (j :: jobs) db =
      (true :: jobs.map (fun _ => false), db ++ [jobToSeenRow j]) := by
    simp [filterNewSteps, hunseen, hmark, hrest]
  refine ⟨rfl, by rw [hstep], ?_⟩
  rw [hstep]
  simp only [List.countP_append]
  have h0 : db.countP (fun r => r.unique_key = k) = 0 := by
    rw [List.countP_eq_zero]
    intro r hr
    simp [hdb r hr]
  rw [h0]
  simp [List.countP, List.countP.go, hrowkey]

/-- Witness for C2: the same job marked twice on an empty store — the
first step reports new, the second reports seen, and one row exists. -/
theorem claim_C2_witness :
    (mark_job_seen exJobFullStack []).1 = none ∧
    (filterNewSteps [exJobFullStack, exJobFullStack] []).1 =
      true :: [exJobFullStack].map (fun _ => false) ∧
    (filterNewSteps [exJobFullStack, exJobFullStack] []).2.countP
      (fun r => r.unique_key = ("linkedin:fs1")) = 1 :=
  claim_C2 ("linkedin:fs1") exJobFullStack [exJobFullStack] []
    (by decide) (by decide)

/-! ## Claim C6 -/

/-- C6: on the description text "Email your resume to jobs@acme.io or
noreply@acme.io" with no page representation supplied, the discovery
cascade extracts both addresses, drops `noreply@acme.io` via the
local-part denylist, ranks the HR-indicative `jobs@acme.io` first and
returns it — for every oracle, performing no network or page effect. -/
theorem claim_C6 {S : Type} (o : Oracle S) :
    extract_emails_from_text exDescC6 = ["jobs@acme.io".data] ∧
    is_valid_email "noreply@acme.io".data = false ∧
    hrLike "jobs@acme.io".data = true ∧
    find_application_email o exDescC6 "" "" none = ("jobs@acme.io", []) :=
  ⟨rfl, rfl, rfl, rfl⟩

/-- Witness for C6 at the trivial oracle. -/
theorem claim_C6_witness :
    find_application_email unitOracle exDescC6 "" "" none =
      ("jobs@acme.io", []) :=
  (claim_C6 unitOracle).2.2.2

/-! ## Claim C8 -/

/-- C8 counterexample: the job `⟨"Full Stack Engineer", "Acme"⟩` (with
empty description) scores 50 under `_job_priority_score` — the +50
full-stack title bonus only; its combined title+description text
contains no JS/TS-ecosystem keyword, so the +100 bonus the claimed
score of 150 presupposes does not fire. -/
theorem claim_C8_counterexample :
    job_priority_score exJobFullStack = 50 ∧ (50 : Int) ≠ 150 := by
  decide

/-- C8 (amended): in the batch of the two Acme jobs with an empty
excluded-employer set, selection returns only the Full Stack Engineer
job, whose score 50 beats the Backend Engineer job's score 20 (the
claimed scores 150/20 are corrected to 50/20). -/
theorem claim_C8 :
    pick_best_per_company [exJobFullStack, exJobBackend] [] =
      [exJobFullStack] ∧
    job_priority_score exJobFullStack = 50 ∧
    job_priority_score exJobBackend = 20 := by
  decide

/-! ## Claim C9 -/

theorem any_containsSub_append (ks : List (List Char)) (a b : List Char)
    (h : ks.any (fun kw => containsSub a kw) = true) :
    ks.any (fun kw => containsSub (a ++ b) kw) = true := by
  rw [List.any_eq_true] at h ⊢
  obtain ⟨kw, hmem, hc⟩ := h
  exact ⟨kw, hmem, containsSub_append_left hc b⟩

theorem jsScore_le (c : List Char) : jsScore c ≤ 100 := by
  unfold jsScore; split_ifs <;> norm_num

theorem jsScore_of_mem {c kw : List Char} (hm : kw ∈ jsKeywords)
    (hc : containsSub c kw = true) : jsScore c = 100 := by
  unfold jsScore
  rw [if_pos (List.any_eq_true.mpr ⟨kw, hm, hc⟩)]

theorem rnScore_nonneg (c : List Char) : 0 ≤ rnScore c := by
  unfold rnScore; split_ifs <;> norm_num

theorem roleScore_append_mono (t k : List Char) :
    roleScore t ≤ roleScore (t ++ k) := by
  unfold roleScore
  by_cases h1 : fullStackKeywords.any (fun kw => containsSub t kw) = true
  · rw [if_pos h1, if_pos (any_containsSub_append _ _ k h1)]
  · rw [if_neg h1]
    by_cases h2 : frontendKeywords.any (fun kw => containsSub t kw) = true
    · rw [if_pos h2]
      by_cases g1 :
          fullStackKeywords.any (fun kw => containsSub (t ++ k) kw) = true
      · rw [if_pos g1]; norm_num
      · rw [if_neg g1, if_pos (any_containsSub_append _ _ k h2)]
    · rw [if_neg h2]
      by_cases h3 : backendKeywords.any (fun kw => containsSub t kw) = true
      · rw [if_pos h3]
        by_cases g1 :
            fullStackKeywords.any (fun kw => containsSub (t ++ k) kw) = true
        · rw [if_pos g1]; norm_num
        · rw [if_neg g1]
          by_cases g2 :
              frontendKeywords.any (fun kw => containsSub (t ++ k) kw) = true
          · rw [if_pos g2]; norm_num
          · rw [if_neg g2, if_pos (any_containsSub_append _ _ k h3)]
      · rw [if_neg h3]
        split_ifs <;> norm_num

theorem jsLower_fix : ∀ kw ∈ jsKeywords, kw.map Char.toLower = kw := by
  decide

/-- C9 counterexample: appending the JS keyword `nodejs` to the title of
the job `⟨title := "react", description := "native"⟩` DECREASES its
score from 140 to 100: the combined text `"react native"` straddles the
title/description junction, and the appended keyword destroys the +40
React-Native bonus while the +100 JS bonus was already present. -/
theorem claim_C9_counterexample :
    ("nodejs" : String).data ∈ jsKeywords ∧
    ({ exJobReact with title := exJobReact.title ++ "nodejs" } : Job).title =
      "reactnodejs" ∧
    job_priority_score exJobReact = 140 ∧
    job_priority_score
      { exJobReact with title := exJobReact.title ++ "nodejs" } = 100 := by
  decide

/-- C9 (amended): appending a JS/TS keyword to a job's title never
decreases its score PROVIDED the job's combined title+description text
does not contain "react native" (the sole component the counterexample
shows can be lost): the +100 language bonus always fires afterwards and
the role-type chain is monotone under title extension. -/
theorem claim_C9 (j : Job) (kw : List Char) (hkw : kw ∈ jsKeywords)
    (hrn : containsSub (combinedText j) reactNativeKw = false) :
    job_priority_score j ≤
      job_priority_score { j with title := j.title ++ String.mk kw } := by
  have hdatamk : (String.mk kw).data = kw := rfl
  have hlow : lowerData (j.title ++ String.mk kw) = lowerData j.title ++ kw := by
    unfold lowerData
    rw [String.data_append, hdatamk, List.map_append, jsLower_fix kw hkw]
  have hc : combinedText { j with title := j.title ++ String.mk kw } =
      (lowerData j.title ++ kw) ++ (' ' :: lowerData j.description) := by
    unfold combinedText
    simp [hlow]
  unfold job_priority_score
  have hjs_new :
      jsScore (combinedText { j with title := j.title ++ String.mk kw }) =
        100 := by
    rw [hc]
    exact jsScore_of_mem hkw
      (containsSub_append_left (containsSub_append_self _ kw) _)
  have h1 : jsScore (combinedText j) ≤ 100 := jsScore_le _
  have h2 : roleScore (lowerData j.title) ≤
      roleScore (lowerData ({ j with title := j.title ++ String.mk kw }).title) := by
    show roleScore (lowerData j.title) ≤
      roleScore (lowerData (j.title ++ String.mk kw))
    rw [hlow]
    exact roleScore_append_mono _ kw
  have h3 : rnScore (combinedText j) = 0 := by simp [rnScore, hrn]
  have h4 : 0 ≤ rnScore (combinedText { j with title := j.title ++ String.mk kw }) :=
    rnScore_nonneg _
  omega

/-- Witness for C9: appending `react` to the Backend Engineer job's
title (whose text lacks "react native") does not decrease its score. -/
theorem claim_C9_witness :
    containsSub (combinedText exJobBackend) reactNativeKw = false ∧
    job_priority_score exJobBackend ≤
      job_priority_score
        { exJobBackend with
          title := exJobBackend.title ++ String.mk ("react").data } :=
  ⟨by decide, claim_C9 exJobBackend ("react").data (by decide) (by decide)⟩

/-! ## Claim C3 -/

theorem sendLoop_sent_le (dry : Bool) (m : Int) :
    ∀ (l : List Bool) (a : Int), (sendLoop dry m a l).1 ≤ (m - a).toNat
  | [], a => by rw [sendLoop]; simp
  | ok :: rest, a => by
      have h1 := sendLoop_sent_le dry m rest (a + 1)
      have h2 := sendLoop_sent_le dry m rest a
      rw [sendLoop]
      by_cases hguard : m ≤ a
      · simp [hguard]
      · rw [if_neg hguard]
        cases dry <;> cases ok <;> simp at h1 h2 ⊢ <;> omega

theorem sendLoop_dry (m : Int) :
    ∀ (l : List Bool) (a : Int),
      sendLoop true m a l = (min (m - a).toNat l.length, 0)
  | [], a => by rw [sendLoop]; simp
  | ok :: rest, a => by
      have h1 := sendLoop_dry m rest (a + 1)
      rw [sendLoop]
      by_cases hguard : m ≤ a
      · have h0 : (m - a).toNat = 0 := by omega
        simp [hguard, h0]
      · rw [if_neg hguard, if_pos rfl, h1]
        have heq : min (m - a).toNat (rest.length + 1) =
            min (m - (a + 1)).toNat rest.length + 1 := by omega
        simp only [List.length_cons]
        rw [heq]

theorem sendLoop_real_sent (m : Int) :
    ∀ (l : List Bool) (a : Int),
      (sendLoop false m a l).1 = min (m - a).toNat (l.count true)
  | [], a => by rw [sendLoop]; simp
  | ok :: rest, a => by
      have h1 := sendLoop_real_sent m rest (a + 1)
      have h2 := sendLoop_real_sent m rest a
      rw [sendLoop]
      by_cases hguard : m ≤ a
      · have h0 : (m - a).toNat = 0 := by omega
        simp [hguard, h0]
      · rw [if_neg hguard]
        cases ok <;> simp [List.count_cons, h1, h2] <;> omega

theorem sendLoop_real_failed (m : Int) :
    ∀ (l : List Bool) (a : Int), l.count true < (m - a).toNat →
      (sendLoop false m a l).2 = l.count false
  | [], a, _ => by rw [sendLoop]; rfl
  | ok :: rest, a, h => by
      have hguard : ¬ m ≤ a := by
        by_contra hle
        have : (m - a).toNat = 0 := by omega
        omega
      rw [sendLoop, if_neg hguard]
      cases ok
      · have hcnt : rest.count true < (m - a).toNat := by
          simp only [List.count_cons] at h
          omega
        have h1 := sendLoop_real_failed m rest a hcnt
        simp [List.count_cons, h1]
      · have hcnt : rest.count true < (m - (a + 1)).toNat := by
          simp only [List.count_cons] at h
          simp at h
          omega
        have h1 := sendLoop_real_failed m rest (a + 1) hcnt
        simp [List.count_cons, h1]

/-- C3: rate limiting of the sending workflows.  With `sentToday`
applications already sent: (1) if `maxPerDay - sentToday ≤ 0` the run
performs nothing and reports zero; (2) the number of budget-consuming
sends never exceeds `min maxPerRun (maxPerDay - sentToday)`; (3) a dry
run counts every processed candidate exactly like a real send and fails
none; (4) in a real run the sends are `min budget (number of successful
outcomes)` — failures do not consume budget; (5) while the budget is
not exhausted every failed send increments the failure counter and
processing continues through the whole candidate list. -/
theorem claim_C3 (maxPerDay maxPerRun sentToday : Int) (dry : Bool)
    (outcomes : List Bool) :
    (maxPerDay - sentToday ≤ 0 →
      run_agent_sends maxPerDay maxPerRun sentToday dry outcomes = (0, 0)) ∧
    ((run_agent_sends maxPerDay maxPerRun sentToday dry outcomes).1 ≤
      (min maxPerRun (maxPerDay - sentToday)).toNat) ∧
    (0 < maxPerDay - sentToday → dry = true →
      run_agent_sends maxPerDay maxPerRun sentToday dry outcomes =
        (min (min maxPerRun (maxPerDay - sentToday)).toNat outcomes.length,
         0)) ∧
    (0 < maxPerDay - sentToday → dry = false →
      (run_agent_sends maxPerDay maxPerRun sentToday dry outcomes).1 =
        min (min maxPerRun (maxPerDay - sentToday)).toNat
          (outcomes.count true)) ∧
    (0 < maxPerDay - sentToday → dry = false →
      outcomes.count true < (min maxPerRun (maxPerDay - sentToday)).toNat →
      (run_agent_sends maxPerDay maxPerRun sentToday dry outcomes).2 =
        outcomes.count false) := by
  unfold run_agent_sends
  by_cases hgate : maxPerDay - sentToday ≤ 0
  · rw [if_pos hgate]
    exact ⟨fun _ => rfl, by simp, fun h => absurd h (by omega),
      fun h => absurd h (by omega), fun h => absurd h (by omega)⟩
  · rw [if_neg hgate]
    refine ⟨fun h => absurd h hgate, ?_, ?_, ?_, ?_⟩
    · have := sendLoop_sent_le dry (min maxPerRun (maxPerDay - sentToday))
        outcomes 0
      simpa using this
    · intro _ hdry
      subst hdry
      have := sendLoop_dry (min maxPerRun (maxPerDay - sentToday)) outcomes 0
      simpa using this
    · intro _ hdry
      subst hdry
      have := sendLoop_real_sent (min maxPerRun (maxPerDay - sentToday))
        outcomes 0
      simpa using this
    · intro _ hdry hcnt
      subst hdry
      have := sendLoop_real_failed (min maxPerRun (maxPerDay - sentToday))
        outcomes 0 (by simpa using hcnt)
      simpa using this

/-- Witness for C3: `maxPerDay = 5`, `maxPerRun = 10`, three already
sent today, outcomes success/failure/success/success — the failure does
not consume budget and the sends stop at the remaining budget of 2. -/
theorem claim_C3_witness :
    (run_agent_sends 5 10 3 false [true, false, true, true]).1 =
      min (min (10 : Int) (5 - 3)).toNat
        ([true, false, true, true].count true) :=
  (claim_C3 5 10 3 false [true, false, true, true]).2.2.2.1 (by decide) rfl

/-! ## Claim C7 -/

theorem rank_emails_ne_nil {emails : List (List Char)} (h : emails ≠ []) :
    rank_emails emails ≠ [] := by
  unfold rank_emails
  rw [if_neg (by simpa using h)]
  intro hcontra
  have hlen := (List.filter_append_perm (fun e => hrLike e) emails).length_eq
  rw [hcontra] at hlen
  simp at hlen
  exact h (List.length_eq_zero.mp hlen.symm)

/-- C7: the cascade short-circuits on strategy 1.  Whenever the
description scan yields a non-empty list of denylist-passing addresses,
`find_application_email` returns the top-ranked description address and
performs no effect at all: no job-page scan, no website lookup, no page
fetch and no website probe (strategies 2–4 are not invoked). -/
theorem claim_C7 {S : Type} (o : Oracle S) (desc url company : String)
    (soup : Option S) (h : extract_emails_from_text desc ≠ []) :
    find_application_email o desc url company soup =
      (String.mk ((rank_emails (extract_emails_from_text desc)).headD []),
       []) := by
  obtain ⟨top, rest, heq⟩ := List.exists_cons_of_ne_nil (rank_emails_ne_nil h)
  have hni : (extract_emails_from_text desc).isEmpty = false := by
    cases hext : extract_emails_from_text desc
    · exact absurd hext h
    · rfl
  simp only [find_application_email, hni, Bool.false_eq_true, if_false, heq,
    List.headD_cons]

/-- Witness for C7 on the scenario-C description text. -/
theorem claim_C7_witness :
    find_application_email unitOracle exDescC6 "" "" none =
      (String.mk
        ((rank_emails (extract_emails_from_text exDescC6)).headD []), []) :=
  claim_C7 unitOracle exDescC6 "" "" none (by decide)

/-! ## Claim C5 -/

/-- C5: `get_pending_jobs` returns exactly the seen rows with a
non-empty resolved contact address, no application matching on
`(title, company)`, and no draft of any status with the same identity
key; the result is ordered newest-discovered-first (bytewise-descending
`discovered_at`, the SQLite `ORDER BY ... DESC` on the ISO text). -/
theorem claim_C5 (st : Store) (s : SeenRow) :
    (s ∈ get_pending_jobs st ↔
      s ∈ st.seen ∧ s.application_email ≠ "" ∧
      (∀ a ∈ st.apps, ¬(a.job_title = s.title ∧ a.company = s.company)) ∧
      (∀ d ∈ st.drafts, d.job_unique_key ≠ s.unique_key)) ∧
    (get_pending_jobs st).Pairwise seenNewerFirst := by
  constructor
  · unfold get_pending_jobs
    rw [(List.perm_insertionSort seenNewerFirst
      (st.seen.filter (pendingFilter st))).mem_iff]
    rw [List.mem_filter]
    simp [pendingFilter, List.any_eq_true, and_assoc, not_and]
  · have htot : IsTotal SeenRow seenNewerFirst :=
      ⟨fun x y => lexLe_total y.discovered_at.data x.discovered_at.data⟩
    have htrans : IsTrans SeenRow seenNewerFirst :=
      ⟨fun _ _ _ h1 h2 => lexLe_trans h2 h1⟩
    exact @List.sorted_insertionSort _ seenNewerFirst _ htot htrans _

/-- Witness for C5 at a concrete store: the membership characterization
for a row that qualifies. -/
theorem claim_C5_witness :
    exSeenRow1 ∈ get_pending_jobs exStore ↔
      exSeenRow1 ∈ exStore.seen ∧ exSeenRow1.application_email ≠ "" ∧
      (∀ a ∈ exStore.apps,
        ¬(a.job_title = exSeenRow1.title ∧ a.company = exSeenRow1.company)) ∧
      (∀ d ∈ exStore.drafts,
        d.job_unique_key ≠ exSeenRow1.unique_key) :=
  (claim_C5 exStore exSeenRow1).1

/-! ## Claim C10 -/

theorem update_draft_status_filter_other {i j : Nat} (hne : j ≠ i)
    (s : String) (l : List DraftRow) :
    (update_draft_status j s l).1.filter (fun r => r.id = i) =
      l.filter (fun r => r.id = i) := by
  unfold update_draft_status
  induction l with
  | nil => rfl
  | cons r t ih =>
      simp only [List.map_cons, List.filter_cons]
      by_cases hr : r.id = j
      · rw [if_pos hr]
        have h1 : ({ r with status := s } : DraftRow).id = r.id := rfl
        simp only [h1, hr, hne, decide_eq_true_eq] at ih ⊢
        simp [hne, ih]
      · rw [if_neg hr]
        simp [ih]

theorem sendDraftsLoop_failed_untouched (outcome : Nat → Bool) (dry : Bool)
    (m : Int) (now : String) (i : Nat) (hout : outcome i = false) :
    ∀ (ds : List DraftRow) (a : Int) (st : Store),
      ((sendDraftsLoop outcome dry m now a ds st).1.drafts.filter
          (fun r => r.id = i) =
        st.drafts.filter (fun r => r.id = i)) ∧
      (∀ x ∈ (sendDraftsLoop outcome dry m now a ds st).1.apps,
        x ∈ st.apps ∨
          ∃ d : DraftRow, outcome d.id = true ∧ x = draftToApplication d now)
  | [], a, st => by
      rw [sendDraftsLoop]
      exact ⟨rfl, fun x hx => Or.inl hx⟩
  | d :: rest, a, st => by
      rw [sendDraftsLoop]
      by_cases hguard : m ≤ a
      · rw [if_pos hguard]
        exact ⟨rfl, fun x hx => Or.inl hx⟩
      · rw [if_neg hguard]
        by_cases hdry : dry = true
        · rw [if_pos hdry]
          have ih := sendDraftsLoop_failed_untouched outcome dry m now i hout
            rest (a + 1) st
          exact ⟨ih.1, ih.2⟩
        · rw [if_neg hdry]
          by_cases hok : outcome d.id = true
          · rw [if_pos hok]
            have hdne : d.id ≠ i := by
              intro hcon
              rw [hcon, hout] at hok
              exact Bool.false_ne_true hok
            have ih := sendDraftsLoop_failed_untouched outcome dry m now i hout
              rest (a + 1)
              { st with
                apps := log_application (draftToApplication d now) st.apps,
                drafts := (update_draft_status d.id ("sent") st.drafts).1 }
            refine ⟨?_, ?_⟩
            · rw [ih.1]
              exact update_draft_status_filter_other hdne ("sent") st.drafts
            · intro x hx
              rcases ih.2 x hx with hmem | hnew
              · have hmem' : x ∈ st.apps ++ [draftToApplication d now] := hmem
                rcases List.mem_append.mp hmem' with h1 | h2
                · exact Or.inl h1
                · right
                  exact ⟨d, hok, by simpa using h2⟩
              · exact Or.inr hnew
          · rw [if_neg hok]
            have ih := sendDraftsLoop_failed_untouched outcome dry m now i hout
              rest a st
            exact ⟨ih.1, ih.2⟩

/-- C10: in `send_approved_drafts`, a draft whose delivery attempt
returns false leaves the store untouched for that draft: its row (all
fields, in particular its status — so it stays eligible for a later
retry) is unchanged, and every application row in the final store was
either already present or was logged for a draft whose delivery
succeeded — never for the failed draft. -/
theorem claim_C10 (outcome : Nat → Bool) (dry sendAll : Bool)
    (maxPerDay maxPerRun sentToday : Int) (now : String) (st : Store)
    (i : Nat) (hout : outcome i = false) :
    ((send_approved_drafts outcome dry sendAll maxPerDay maxPerRun sentToday
        now st).1.drafts.filter (fun r => r.id = i) =
      st.drafts.filter (fun r => r.id = i)) ∧
    (∀ x ∈ (send_approved_drafts outcome dry sendAll maxPerDay maxPerRun
        sentToday now st).1.apps,
      x ∈ st.apps ∨
        ∃ d : DraftRow, outcome d.id = true ∧ x = draftToApplication d now) := by
  unfold send_approved_drafts
  by_cases hgate : maxPerDay - sentToday ≤ 0
  · rw [if_pos hgate]
    exact ⟨rfl, fun x hx => Or.inl hx⟩
  · rw [if_neg hgate]
    exact sendDraftsLoop_failed_untouched outcome dry
      (min maxPerRun (maxPerDay - sentToday)) now i hout _ 0 st

/-- Witness for C10: a store holding one approved draft (id 2), every
delivery failing — the draft's row survives unchanged. -/
theorem claim_C10_witness :
    ((send_approved_drafts (fun _ => false) false false 5 10 0 ("t")
        exStoreDrafts).1.drafts.filter (fun r => r.id = 2) =
      exStoreDrafts.drafts.filter (fun r => r.id = 2)) :=
  (claim_C10 (fun _ => false) false false 5 10 0 ("t") exStoreDrafts 2
    rfl).1

/-! ## Claim C4 -/

theorem mem_dictInsert_self (k : String) (v : Job × Int) :
    ∀ l : List (String × Job × Int), (k, v) ∈ dictInsert k v l
  | [] => by rw [dictInsert]; exact List.mem_singleton_self _
  | hd :: t => by
      rw [dictInsert]
      by_cases hh : hd.1 = k
      · rw [if_pos hh]; exact List.mem_cons_self _ _
      · rw [if_neg hh]; exact List.mem_cons_of_mem _ (mem_dictInsert_self k v t)

theorem mem_dictInsert {k : String} {v : Job × Int} :
    ∀ {l : List (String × Job × Int)} {e : String × Job × Int},
      (l.map Prod.fst).Nodup → e ∈ dictInsert k v l →
      e = (k, v) ∨ (e ∈ l ∧ e.1 ≠ k)
  | [], e, _, he => by
      rw [dictInsert] at he
      exact Or.inl (by simpa using he)
  | hd :: t, e, hnd, he => by
      simp only [List.map_cons, List.nodup_cons] at hnd
      rw [dictInsert] at he
      by_cases hh : hd.1 = k
      · rw [if_pos hh] at he
        rcases List.mem_cons.mp he with h1 | h2
        · exact Or.inl h1
        · refine Or.inr ⟨List.mem_cons_of_mem _ h2, ?_⟩
          intro hek
          apply hnd.1
          rw [hh, ← hek]
          exact List.mem_map_of_mem Prod.fst h2
      · rw [if_neg hh] at he
        rcases List.mem_cons.mp he with h1 | h2
        · subst h1
          exact Or.inr ⟨List.mem_cons_self _ _, hh⟩
        · rcases mem_dictInsert hnd.2 h2 with h3 | ⟨h4, h5⟩
          · exact Or.inl h3
          · exact Or.inr ⟨List.mem_cons_of_mem _ h4, h5⟩

theorem mem_keys_dictInsert {k : String} {v : Job × Int} :
    ∀ {l : List (String × Job × Int)} {a : String},
      a ∈ (dictInsert k v l).map Prod.fst ↔ (a = k ∨ a ∈ l.map Prod.fst)
  | [], a => by rw [dictInsert]; simp
  | hd :: t, a => by
      rw [dictInsert]
      by_cases hh : hd.1 = k
      · rw [if_pos hh]
        simp only [List.map_cons, List.mem_cons, hh]
        tauto
      · rw [if_neg hh]
        simp only [List.map_cons, List.mem_cons,
          mem_keys_dictInsert (l := t) (a := a)]
        tauto

theorem nodup_keys_dictInsert {k : String} {v : Job × Int} :
    ∀ {l : List (String × Job × Int)},
      (l.map Prod.fst).Nodup → ((dictInsert k v l).map Prod.fst).Nodup
  | [], _ => by rw [dictInsert]; simp
  | hd :: t, hnd => by
      simp only [List.map_cons, List.nodup_cons] at hnd
      rw [dictInsert]
      by_cases hh : hd.1 = k
      · rw [if_pos hh]
        simp only [List.map_cons, List.nodup_cons]
        exact ⟨by rw [← hh]; exact hnd.1, hnd.2⟩
      · rw [if_neg hh]
        simp only [List.map_cons, List.nodup_cons]
        refine ⟨?_, nodup_keys_dictInsert hnd.2⟩
        intro hmem
        rcases mem_keys_dictInsert.mp hmem with h1 | h2
        · exact hh h1
        · exact hnd.1 h2

theorem alookup_some_mem {k : String} {v : Job × Int} :
    ∀ {l : List (String × Job × Int)}, alookup k l = some v → (k, v) ∈ l
  | [], h => by rw [alookup] at h; exact absurd h (by simp)
  | hd :: t, h => by
      rw [alookup] at h
      by_cases hh : hd.1 = k
      · rw [if_pos hh] at h
        have hv : hd.2 = v := by injection h
        have heq : (k, v) = hd := by
          rw [← hh, ← hv]
        rw [heq]
        exact List.mem_cons_self _ _
      · rw [if_neg hh] at h
        exact List.mem_cons_of_mem _ (alookup_some_mem h)

theorem alookup_none_forall {k : String} :
    ∀ {l : List (String × Job × Int)}, alookup k l = none →
      ∀ e ∈ l, e.1 ≠ k
  | [], _, e, he => absurd he (List.not_mem_nil e)
  | hd :: t, h, e, he => by
      rw [alookup] at h
      by_cases hh : hd.1 = k
      · rw [if_pos hh] at h; exact absurd h (by simp)
      · rw [if_neg hh] at h
        rcases List.mem_cons.mp he with h1 | h2
        · rw [h1]; exact hh
        · exact alookup_none_forall h e h2

theorem nodup_keys_eq {l : List (String × Job × Int)}
    (hnd : (l.map Prod.fst).Nodup) {e1 e2 : String × Job × Int}
    (h1 : e1 ∈ l) (h2 : e2 ∈ l) (hk : e1.1 = e2.1) : e1 = e2 := by
  induction l with
  | nil => cases h1
  | cons hd t ih =>
      simp only [List.map_cons, List.nodup_cons] at hnd
      rcases List.mem_cons.mp h1 with g1 | g1 <;>
        rcases List.mem_cons.mp h2 with g2 | g2
      · rw [g1, g2]
      · exfalso
        apply hnd.1
        rw [g1] at hk
        rw [hk]
        exact List.mem_map_of_mem Prod.fst g2
      · exfalso
        apply hnd.1
        rw [g2] at hk
        rw [← hk]
        exact List.mem_map_of_mem Prod.fst g1
      · exact ih hnd.2 g1 g2

theorem pickStep_inv {contacted : List String} {processed : List Job}
    {acc : List (String × Job × Int)}
    (h : PickInv contacted processed acc) (job : Job) :
    PickInv contacted (processed ++ [job]) (pickStep contacted acc job) := by
  obtain ⟨hnd, hent, hcomp⟩ := h
  simp only [pickStep]
  by_cases hctc : companyKey job ∈ contacted
  · rw [if_pos hctc]
    refine ⟨hnd, ?_, ?_⟩
    · intro e he
      obtain ⟨h1, h2, h3, h4, l₁, l₂, h5, h6⟩ := hent e he
      refine ⟨h1, h2, h3, ?_, l₁, l₂ ++ [job], by rw [h5]; simp, h6⟩
      intro x hx hkx
      rcases List.mem_append.mp hx with hx1 | hx2
      · exact h4 x hx1 hkx
      · have hxj : x = job := by simpa using hx2
        subst hxj
        have hc2 : companyKey x ∈ contacted := hctc
        rw [hkx] at hc2
        exact absurd hc2 h3
    · intro x hx hnx
      rcases List.mem_append.mp hx with hx1 | hx2
      · exact hcomp x hx1 hnx
      · have hxj : x = job := by simpa using hx2
        subst hxj
        exact absurd hctc hnx
  · rw [if_neg hctc]
    cases hlk : alookup (companyKey job) acc with
    | none =>
        simp only [hlk]
        have hnone := alookup_none_forall hlk
        have hnpro : ∀ x ∈ processed, companyKey x ≠ companyKey job := by
          intro x hx hkx
          rcases hcomp x hx (by rw [hkx]; exact hctc) with ⟨e, he, hek⟩
          exact hnone e he (by rw [hek, hkx])
        refine ⟨nodup_keys_dictInsert hnd, ?_, ?_⟩
        · intro e he
          rcases mem_dictInsert hnd he with he1 | ⟨he2, he3⟩
          · subst he1
            refine ⟨rfl, rfl, hctc, ?_, processed, [], rfl, ?_⟩
            · intro x hx hkx
              rcases List.mem_append.mp hx with hx1 | hx2
              · exact absurd hkx (hnpro x hx1)
              · have hxj : x = job := by simpa using hx2
                subst hxj
                exact le_refl _
            · intro x hx hkx
              exact absurd hkx (hnpro x hx)
          · obtain ⟨h1, h2, h3, h4, l₁, l₂, h5, h6⟩ := hent e he2
            refine ⟨h1, h2, h3, ?_, l₁, l₂ ++ [job], by rw [h5]; simp, h6⟩
            intro x hx hkx
            rcases List.mem_append.mp hx with hx1 | hx2
            · exact h4 x hx1 hkx
            · have hxj : x = job := by simpa using hx2
              subst hxj
              exact absurd hkx (fun hh => he3 hh.symm)
        · intro x hx hnx
          rcases List.mem_append.mp hx with hx1 | hx2
          · obtain ⟨e, he, hek⟩ := hcomp x hx1 hnx
            have h1 : e.1 ∈ (dictInsert (companyKey job)
                (job, job_priority_score job) acc).map Prod.fst :=
              mem_keys_dictInsert.mpr (Or.inr (List.mem_map_of_mem _ he))
            obtain ⟨e2, he2, hke2⟩ := List.mem_map.mp h1
            exact ⟨e2, he2, by rw [hke2, hek]⟩
          · have hxj : x = job := by simpa using hx2
            subst hxj
            exact ⟨(companyKey x, (x, job_priority_score x)),
              mem_dictInsert_self _ _ _, rfl⟩
    | some p =>
        simp only [hlk]
        have hpmem : (companyKey job, p) ∈ acc := alookup_some_mem hlk
        have hp := hent _ hpmem
        by_cases hlt : p.2 < job_priority_score job
        · rw [if_pos hlt]
          refine ⟨nodup_keys_dictInsert hnd, ?_, ?_⟩
          · intro e he
            rcases mem_dictInsert hnd he with he1 | ⟨he2, he3⟩
            · subst he1
              refine ⟨rfl, rfl, hctc, ?_, processed, [], rfl, ?_⟩
              · intro x hx hkx
                rcases List.mem_append.mp hx with hx1 | hx2
                · have hple : job_priority_score x ≤ p.2 :=
                    hp.2.2.2.1 x hx1 hkx
                  show job_priority_score x ≤ job_priority_score job
                  omega
                · have hxj : x = job := by simpa using hx2
                  subst hxj
                  exact le_refl _
              · intro x hx hkx
                have hple : job_priority_score x ≤ p.2 :=
                  hp.2.2.2.1 x hx hkx
                show job_priority_score x < job_priority_score job
                omega
            · obtain ⟨h1, h2, h3, h4, l₁, l₂, h5, h6⟩ := hent e he2
              refine ⟨h1, h2, h3, ?_, l₁, l₂ ++ [job], by rw [h5]; simp, h6⟩
              intro x hx hkx
              rcases List.mem_append.mp hx with hx1 | hx2
              · exact h4 x hx1 hkx
              · have hxj : x = job := by simpa using hx2
                subst hxj
                exact absurd hkx (fun hh => he3 hh.symm)
          · intro x hx hnx
            rcases List.mem_append.mp hx with hx1 | hx2
            · obtain ⟨e, he, hek⟩ := hcomp x hx1 hnx
              have h1 : e.1 ∈ (dictInsert (companyKey job)
                  (job, job_priority_score job) acc).map Prod.fst :=
                mem_keys_dictInsert.mpr (Or.inr (List.mem_map_of_mem _ he))
              obtain ⟨e2, he2, hke2⟩ := List.mem_map.mp h1
              exact ⟨e2, he2, by rw [hke2, hek]⟩
            · have hxj : x = job := by simpa using hx2
              subst hxj
              exact ⟨(companyKey x, (x, job_priority_score x)),
                mem_dictInsert_self _ _ _, rfl⟩
        · rw [if_neg hlt]
          refine ⟨hnd, ?_, ?_⟩
          · intro e he
            obtain ⟨h1, h2, h3, h4, l₁, l₂, h5, h6⟩ := hent e he
            refine ⟨h1, h2, h3, ?_, l₁, l₂ ++ [job], by rw [h5]; simp, h6⟩
            intro x hx hkx
            rcases List.mem_append.mp hx with hx1 | hx2
            · exact h4 x hx1 hkx
            · have hxj : x = job := by simpa using hx2
              subst hxj
              have hkey : ((companyKey x, p) : String × Job × Int).1 = e.1 :=
                hkx
              have heq := nodup_keys_eq hnd hpmem he hkey
              rw [← heq]
              show job_priority_score x ≤ p.2
              omega
          · intro x hx hnx
            rcases List.mem_append.mp hx with hx1 | hx2
            · exact hcomp x hx1 hnx
            · have hxj : x = job := by simpa using hx2
              subst hxj
              exact ⟨(companyKey x, p), hpmem, rfl⟩

theorem pickInv_nil (contacted : List String) : PickInv contacted [] [] :=
  ⟨by simp, by simp, by simp⟩

theorem pick_fold_inv (contacted : List String) :
    ∀ (jobs processed : List Job) (acc : List (String × Job × Int)),
      PickInv contacted processed acc →
      PickInv contacted (processed ++ jobs)
        (jobs.foldl (pickStep contacted) acc)
  | [], processed, acc, h => by simpa using h
  | j :: rest, processed, acc, h => by
      have hstep := pickStep_inv h j
      have hrec := pick_fold_inv contacted rest (processed ++ [j]) _ hstep
      simpa [List.append_assoc] using hrec

/-- C4: `_pick_best_per_company` returns a list in which no two entries
share a normalized (stripped, lowercased) employer key; no entry's key
belongs to the excluded set; every returned job's score is maximal among
the input jobs sharing its key; and it strictly beats every
earlier-encountered job of its group (so a tie keeps the
first-encountered job). -/
theorem claim_C4 (jobs : List Job) (contacted : List String) :
    ((pick_best_per_company jobs contacted).map companyKey).Nodup ∧
    (∀ j ∈ pick_best_per_company jobs contacted,
      companyKey j ∉ contacted) ∧
    (∀ j ∈ pick_best_per_company jobs contacted, ∀ x ∈ jobs,
      companyKey x = companyKey j →
        job_priority_score x ≤ job_priority_score j) ∧
    (∀ j ∈ pick_best_per_company jobs contacted,
      ∃ l₁ l₂, jobs = l₁ ++ j :: l₂ ∧
        ∀ x ∈ l₁, companyKey x = companyKey j →
          job_priority_score x < job_priority_score j) := by
  have hinv := pick_fold_inv contacted jobs [] [] (pickInv_nil contacted)
  simp only [List.nil_append] at hinv
  obtain ⟨hnd, hent, _⟩ := hinv
  unfold pick_best_per_company
  refine ⟨?_, ?_, ?_, ?_⟩
  · rw [List.map_map]
    have hmc : List.map (companyKey ∘ fun e => e.2.1)
        (jobs.foldl (pickStep contacted) []) =
        List.map Prod.fst (jobs.foldl (pickStep contacted) []) := by
      apply List.map_congr_left
      intro e he
      exact ((hent e he).1).symm
    rw [hmc]
    exact hnd
  · intro j hj
    obtain ⟨e, he, hej⟩ := List.mem_map.mp hj
    have h := hent e he
    rw [← hej, ← h.1]
    exact h.2.2.1
  · intro j hj x hx hkx
    obtain ⟨e, he, hej⟩ := List.mem_map.mp hj
    have h := hent e he
    have hsc : job_priority_score x ≤ e.2.2 :=
      h.2.2.2.1 x hx (by rw [hkx, ← hej]; exact h.1.symm)
    rw [← hej, ← h.2.1]
    exact hsc
  · intro j hj
    obtain ⟨e, he, hej⟩ := List.mem_map.mp hj
    have h := hent e he
    obtain ⟨l₁, l₂, h5, h6⟩ := h.2.2.2.2
    refine ⟨l₁, l₂, by rw [← hej]; exact h5, ?_⟩
    intro x hx hkx
    have hlt := h6 x hx (by rw [hkx, ← hej]; exact h.1.symm)
    rw [← hej, ← h.2.1]
    exact hlt

/-- Witness for C4: on the two-Acme-jobs batch with `zzz` excluded, the
returned Full Stack job's employer key is not excluded. -/
theorem claim_C4_witness :
    companyKey exJobFullStack ∉ (["zzz"] : List String) :=
  (claim_C4 [exJobFullStack, exJobBackend] (["zzz"])).2.1 exJobFullStack
    (by decide)
